import Mathlib

/-!
Shallow embedding of the reference list-CRDT library (crdts.ts and the
fugue-max tree backend) and proofs about its integration kernels,
generators, position lookup, delete, and merge driver.

Conventions of the embedding:
* JS `[agent, seq]` ids become `ItemId := String × Nat`.
* JS `Record<string, number>` version maps become association lists
  `List (String × Nat)` with first-match lookup.
* Functions that can `throw` return `Option`; `none` is the thrown error.
* Array `splice(i, 0, x)` becomes `jsSplice`, which (like JS) clamps the
  index to the array length.
* The `idx_hint` parameters of the source are pure lookup accelerators
  (the hint path returns the same index that the linear scan finds for
  documents with unique ids); the embedding uses the linear scan.
-/

/-- Identifier of an item: `[agent, seq]` from crdts.ts. -/
abbrev ItemId := String × Nat

/-- Item record from crdts.ts. `content = none` encodes a null content
(sync9 split marker); `originRight` is used by the yjs family and fugue,
`seq` by RGA/automerge, `insertAfter` by sync9. -/
structure Item (T : Type) where
  content : Option T
  id : ItemId
  originLeft : Option ItemId
  originRight : Option ItemId
  seq : Nat
  insertAfter : Bool
  isDeleted : Bool
deriving DecidableEq, Repr

/-- Document record from crdts.ts: ordered item list, per-agent version
map, cached visible length, and `maxSeq` (RGA only). -/
structure Doc (T : Type) where
  content : List (Item T)
  version : List (String × Nat)
  length : Nat
  maxSeq : Nat
deriving DecidableEq, Repr

/-- The empty document (`newDoc`). -/
def newDoc {T : Type} : Doc T := ⟨[], [], 0, 0⟩

/-- Version lookup: `doc.version[agent]`, `none` when the agent is absent. -/
def vGet : List (String × Nat) → String → Option Nat
  | [], _ => none
  | (a, s) :: rest, q => if a = q then some s else vGet rest q

/-- Version update: `doc.version[agent] = n` (replace or append). -/
def vSet : List (String × Nat) → String → Nat → List (String × Nat)
  | [], q, n => [(q, n)]
  | (a, s) :: rest, q, n => if a = q then (q, n) :: rest else (a, s) :: vSet rest q n

/-- JS `arr.splice(i, 0, x)`: insert `x` before index `i`, clamping `i`
to the array length. -/
def jsSplice {T : Type} (l : List T) (i : Nat) (x : T) : List T :=
  l.take i ++ x :: l.drop i

/-- JS string comparison `a < b` on agent ids, via the lexicographic
order on the character lists. This is the same order as Lean's `<` on
`String` (see `jsStrLt_iff`), but unlike the builtin `Decidable`
instance it evaluates inside the kernel. -/
def jsStrLt (a b : String) : Bool :=
  decide (a.toList < b.toList)

/-- The seq-prelude check shared by the validating kernels:
`newItem.id[1] === (doc.version[agent] ?? -1) + 1`. -/
def seqOk {T : Type} (doc : Doc T) (newItem : Item T) : Bool :=
  match vGet doc.version newItem.id.1 with
  | none => newItem.id.2 == 0
  | some v => newItem.id.2 == v + 1

/-- Predicate of `findItem2`'s scan in crdts.ts: an item matches a needle
`(agent, seq)` if its id equals the needle, and additionally (when
`atEnd` is set, the sync9 case) its content is non-null. -/
def matchItem {T : Type} (atEnd : Bool) (agent : String) (seq : Nat) (it : Item T) : Bool :=
  (!atEnd && (it.id == (agent, seq))) || (it.content.isSome && atEnd && (it.id == (agent, seq)))

/-- Index-returning core of `findItem2`: first index whose item matches,
`none` when the needle is not found (the thrown `Could not find item`). -/
def findItemN {T : Type} (content : List (Item T)) (atEnd : Bool) (agent : String) (seq : Nat) :
    Option Nat :=
  content.findIdx? (matchItem atEnd agent seq)

/-- `findItem2` from crdts.ts: `-1` for a null needle, otherwise the index
of the matching item (as an `Int`); `none` is the thrown error. -/
def findItem2 {T : Type} (content : List (Item T)) (needle : Option ItemId) (atEnd : Bool) :
    Option Int :=
  match needle with
  | none => some (-1)
  | some (agent, seq) =>
    match findItemN content atEnd agent seq with
    | some idx => some (idx : Int)
    | none => none

/-- `findItem` from crdts.ts (`findItem2` with `atEnd = false`). -/
def findItem {T : Type} (content : List (Item T)) (needle : Option ItemId) : Option Int :=
  findItem2 content needle false

/-- Loop of `findItemAtPos`: walk the items, skipping deleted and
null-content ones, decrementing `pos` at each visible item; `i` is the
current array index. -/
def findItemAtPosAux {T : Type} : List (Item T) → Nat → Bool → Nat → Option Nat
  | [], pos, _, i => if pos = 0 then some i else none
  | item :: rest, pos, stickEnd, i =>
    if stickEnd ∧ pos = 0 then some i
    else if item.isDeleted || item.content.isNone then findItemAtPosAux rest pos stickEnd (i + 1)
    else if pos = 0 then some i
    else findItemAtPosAux rest (pos - 1) stickEnd (i + 1)

/-- `findItemAtPos` from crdts.ts: translate a visible position into a
content-array index; `none` is the thrown `past end of the document`. -/
def findItemAtPos {T : Type} (doc : Doc T) (pos : Nat) (stickEnd : Bool) : Option Nat :=
  findItemAtPosAux doc.content pos stickEnd 0

/-- ItemId of `content[j]` for a possibly-negative index `j`
(`doc.content[j]?.id ?? null`). -/
def idAt {T : Type} (content : List (Item T)) (j : Int) : Option ItemId :=
  if j < 0 then none else (content.get? j.toNat).map (·.id)

/-- Visibility of an item: `!isDeleted && content != null`. -/
def visibleItem {T : Type} (it : Item T) : Bool :=
  !it.isDeleted && it.content.isSome

/-- Number of visible items of a content list (the value `doc.length`
is specified to cache). -/
def countVisible {T : Type} (l : List (Item T)) : Nat :=
  l.countP visibleItem

/-- `getArray` from crdts.ts: the visible content, in order. -/
def getArrayL {T : Type} (l : List (Item T)) : List T :=
  l.filterMap (fun it => if it.isDeleted then none else it.content)

/-- `getArray` on a document. -/
def getArray {T : Type} (doc : Doc T) : List T :=
  getArrayL doc.content

/-- `isInVersion` from crdts.ts. -/
def isInVersion (i : Option ItemId) (version : List (String × Nat)) : Bool :=
  match i with
  | none => true
  | some (agent, s) =>
    match vGet version agent with
    | none => false
    | some seq => seq ≥ s

/-- `canInsertNow` from crdts.ts: the causal-readiness gate of the merge
driver. -/
def canInsertNow {T : Type} (op : Item T) (doc : Doc T) : Bool :=
  !isInVersion (some op.id) doc.version
    && (op.id.2 == 0 || isInVersion (some (op.id.1, op.id.2 - 1)) doc.version)
    && isInVersion op.originLeft doc.version
    && isInVersion op.originRight doc.version

/-- Resolved index of an `originRight` field:
`originRight == null ? doc.content.length : findItem(doc, originRight)`. -/
def rightIdxOf {T : Type} (content : List (Item T)) (origin : Option ItemId) : Option Int :=
  match origin with
  | none => some (content.length : Int)
  | some r => findItem content (some r)

/-- Scan loop of `integrateYjsMod`. The source iterates an index `i`
over `doc.content`; the embedding walks the remaining suffix `rest`
(callers pass `content.drop i`) while keeping the absolute cursor `i`
for the boundary comparisons. State: pending destination `destIdx` and
the `scanning` flag. At each step the destination advances to `i` when
not scanning; the loop ends at the end of content or at the `right`
boundary; otherwise the concurrency punnett square of the source
decides between stopping, scanning, and skipping. -/
def yjsModLoop {T : Type} (content : List (Item T)) (left right : Int) (agent : String) :
    List (Item T) → Nat → Nat → Bool → Option Nat
  | rest, i, destIdx, scanning =>
    let d := if scanning then destIdx else i
    if i = content.length ∨ (i : Int) = right then some d
    else
      match rest with
      | [] => none
      | other :: rest₁ =>
        match findItem content other.originLeft with
        | none => none
        | some oleft =>
          match rightIdxOf content other.originRight with
          | none => none
          | some oright =>
            if oleft < left then some d
            else if oleft = left then
              if oright < right then yjsModLoop content left right agent rest₁ (i + 1) d true
              else if oright = right then
                if jsStrLt agent other.id.1 then some d
                else yjsModLoop content left right agent rest₁ (i + 1) d false
              else yjsModLoop content left right agent rest₁ (i + 1) d false
            else yjsModLoop content left right agent rest₁ (i + 1) d scanning

/-- Scan loop of `integrateYjs` (reference-yjs tie-breaking), in the
same suffix-walking style as `yjsModLoop`. -/
def yjsLoop {T : Type} (content : List (Item T)) (left right : Int) (agent : String) :
    List (Item T) → Nat → Nat → Bool → Option Nat
  | rest, i, destIdx, scanning =>
    let d := if scanning then destIdx else i
    if i = content.length ∨ (i : Int) = right then some d
    else
      match rest with
      | [] => none
      | other :: rest₁ =>
        match findItem content other.originLeft with
        | none => none
        | some oleft =>
          match rightIdxOf content other.originRight with
          | none => none
          | some oright =>
            if oleft < left then some d
            else if oleft = left then
              if jsStrLt other.id.1 agent then yjsLoop content left right agent rest₁ (i + 1) d false
              else if oright = right then some d
              else yjsLoop content left right agent rest₁ (i + 1) d true
            else yjsLoop content left right agent rest₁ (i + 1) d scanning

/-- `integrateYjsMod` from crdts.ts: validate the seq prelude, resolve
the origin boundaries, run the scan, splice at the chosen index, and
update `version` and `length`. -/
def integrateYjsMod {T : Type} (doc : Doc T) (newItem : Item T) : Option (Doc T) :=
  if !seqOk doc newItem then none
  else
    (findItem doc.content newItem.originLeft).bind fun left =>
      (rightIdxOf doc.content newItem.originRight).bind fun right =>
        (yjsModLoop doc.content left right newItem.id.1 (doc.content.drop (left + 1).toNat)
            (left + 1).toNat (left + 1).toNat false).map fun destIdx =>
          { content := jsSplice doc.content destIdx newItem,
            version := vSet doc.version newItem.id.1 newItem.id.2,
            length := if newItem.isDeleted then doc.length else doc.length + 1,
            maxSeq := doc.maxSeq }

/-- `integrateYjs` from crdts.ts. -/
def integrateYjs {T : Type} (doc : Doc T) (newItem : Item T) : Option (Doc T) :=
  if !seqOk doc newItem then none
  else
    (findItem doc.content newItem.originLeft).bind fun left =>
      (rightIdxOf doc.content newItem.originRight).bind fun right =>
        (yjsLoop doc.content left right newItem.id.1 (doc.content.drop (left + 1).toNat)
            (left + 1).toNat (left + 1).toNat false).map fun destIdx =>
          { content := jsSplice doc.content destIdx newItem,
            version := vSet doc.version newItem.id.1 newItem.id.2,
            length := if newItem.isDeleted then doc.length else doc.length + 1,
            maxSeq := doc.maxSeq }

/-- Scan loop of `integrateRGA`, with the early `newItem.seq > o.seq`
break of the source kept in place (both occurrences). The loop runs
`for (; destIdx < content.length; destIdx++)`; the embedding walks the
remaining suffix (callers pass `content.drop destIdx`) with the
absolute index `destIdx` alongside. -/
def rgaLoop {T : Type} (content : List (Item T)) (parent : Int) (nseq : Nat) (nagent : String) :
    List (Item T) → Nat → Option Nat
  | [], destIdx => some destIdx
  | o :: rest, destIdx =>
    if nseq > o.seq then some destIdx
    else
      match findItem content o.originLeft with
      | none => none
      | some oparent =>
        if oparent < parent then some destIdx
        else if oparent = parent then
          if nseq > o.seq then some destIdx
          else if nseq = o.seq then
            if jsStrLt nagent o.id.1 then some destIdx
            else rgaLoop content parent nseq nagent rest (destIdx + 1)
          else rgaLoop content parent nseq nagent rest (destIdx + 1)
        else rgaLoop content parent nseq nagent rest (destIdx + 1)

/-- Scan loop of `integrateRGASmol`: early break plus the flattened
single-condition stop test of the source, in the same suffix-walking
style as `rgaLoop`. -/
def rgaSmolLoop {T : Type} (content : List (Item T)) (parent : Int) (nseq : Nat)
    (nagent : String) : List (Item T) → Nat → Option Nat
  | [], i => some i
  | o :: rest, i =>
    if nseq > o.seq then some i
    else
      match findItem content o.originLeft with
      | none => none
      | some oparent =>
        if oparent < parent ∨ (oparent = parent ∧ nseq = o.seq ∧ jsStrLt nagent o.id.1) then some i
        else rgaSmolLoop content parent nseq nagent rest (i + 1)

/-- `integrateRGA` from crdts.ts (it validates the seq prelude, then
scans; `maxSeq` is raised to the new item's seq when larger). -/
def integrateRGA {T : Type} (doc : Doc T) (newItem : Item T) : Option (Doc T) :=
  if !seqOk doc newItem then none
  else
    (findItem doc.content newItem.originLeft).bind fun parent =>
      (rgaLoop doc.content parent newItem.seq newItem.id.1
          (doc.content.drop (parent + 1).toNat) (parent + 1).toNat).map
        fun destIdx =>
          { content := jsSplice doc.content destIdx newItem,
            version := vSet doc.version newItem.id.1 newItem.id.2,
            length := if newItem.isDeleted then doc.length else doc.length + 1,
            maxSeq := if newItem.seq > doc.maxSeq then newItem.seq else doc.maxSeq }

/-- `integrateRGASmol` from crdts.ts: the kernel exported for automerge.
Note the source has no seq-prelude validation here; it writes
`doc.version[agent] = seq` unconditionally after the scan. -/
def integrateRGASmol {T : Type} (doc : Doc T) (newItem : Item T) : Option (Doc T) :=
  (findItem doc.content newItem.originLeft).bind fun parent =>
    (rgaSmolLoop doc.content parent newItem.seq newItem.id.1
        (doc.content.drop (parent + 1).toNat) (parent + 1).toNat).map fun i =>
      { content := jsSplice doc.content i newItem,
        version := vSet doc.version newItem.id.1 newItem.id.2,
        length := if newItem.isDeleted then doc.length else doc.length + 1,
        maxSeq := max doc.maxSeq newItem.seq }

/-- Scan loop of `integrateSync9` (the non-split path): skip descendants
of earlier anchors, stop when the cursor's parent index drops below the
new item's parent index or an agent-ascending tiebreak selects the new
item. -/
def sync9Loop {T : Type} (content : List (Item T)) (parentIdx : Int) (agent : String) :
    List (Item T) → Nat → Option Nat
  | [], destIdx => some destIdx
  | other :: rest, destIdx =>
    match findItem2 content other.originLeft other.insertAfter with
    | none => none
    | some oparentIdx =>
      if oparentIdx < parentIdx then some destIdx
      else if oparentIdx = parentIdx then
        if jsStrLt agent other.id.1 then some destIdx
        else sync9Loop content parentIdx agent rest (destIdx + 1)
      else sync9Loop content parentIdx agent rest (destIdx + 1)

/-- `integrateSync9` from crdts.ts. When the new item attaches to the
before-anchor of a parent with non-null content, a content-null clone of
the parent is spliced immediately before it (the split marker) and the
sibling scan is skipped; otherwise the sibling scan chooses the
destination. -/
def integrateSync9 {T : Type} (doc : Doc T) (newItem : Item T) : Option (Doc T) :=
  if !seqOk doc newItem then none
  else
    (findItem2 doc.content newItem.originLeft newItem.insertAfter).bind fun parentIdx =>
      let version' := vSet doc.version newItem.id.1 newItem.id.2
      let newLength := if !newItem.isDeleted && newItem.content.isSome then doc.length + 1
        else doc.length
      let scanBranch : Option (Doc T) :=
        (sync9Loop doc.content parentIdx newItem.id.1 (doc.content.drop (parentIdx + 1).toNat)
            (parentIdx + 1).toNat).map fun destIdx =>
          { content := jsSplice doc.content destIdx newItem,
            version := version', length := newLength, maxSeq := doc.maxSeq }
      if 0 ≤ parentIdx ∧ newItem.originLeft.isSome ∧ newItem.insertAfter = false then
        match doc.content.get? parentIdx.toNat with
        | none => scanBranch
        | some parentItem =>
          if parentItem.content.isSome then
            some { content := jsSplice (jsSplice doc.content parentIdx.toNat
                     { parentItem with content := none }) (parentIdx.toNat + 1) newItem,
                   version := version', length := newLength, maxSeq := doc.maxSeq }
          else scanBranch
      else scanBranch

/-- Next id for an agent: `(doc.version[agent] ?? -1) + 1`. -/
def nextSeqFor {T : Type} (doc : Doc T) (agent : String) : Nat :=
  match vGet doc.version agent with
  | none => 0
  | some v => v + 1

/-- `localInsert` from crdts.ts (the yjs / yjsMod / automerge generator),
parameterized by the algorithm's integration kernel (`this.integrate`). -/
def localInsert {T : Type} (integrate : Doc T → Item T → Option (Doc T)) (doc : Doc T)
    (agent : String) (pos : Nat) (c : T) : Option (Doc T) :=
  match findItemAtPos doc pos false with
  | none => none
  | some i =>
    integrate doc
      { content := some c,
        id := (agent, nextSeqFor doc agent),
        isDeleted := false,
        originLeft := idAt doc.content ((i : Int) - 1),
        originRight := idAt doc.content (i : Int),
        insertAfter := true,
        seq := doc.maxSeq + 1 }

/-- Item constructed by `localInsertFugue` in crdts.ts. The source
computes `isRightChild = originRight != null && idEq(originRight,
rightItem.originLeft)` where `originRight` is `rightItem.id`, and nulls
`originRight` when that holds. -/
def fugueItemFor {T : Type} (doc : Doc T) (agent : String) (pos : Nat) (c : T) :
    Option (Item T) :=
  match findItemAtPos doc pos false with
  | none => none
  | some i =>
    let rightItem := doc.content.get? i
    let originRight : Option ItemId := rightItem.map (·.id)
    let isRightChild : Bool :=
      match rightItem with
      | some r => r.originLeft == some r.id
      | none => false
    some
      { content := some c,
        id := (agent, nextSeqFor doc agent),
        isDeleted := false,
        originLeft := idAt doc.content ((i : Int) - 1),
        originRight := if isRightChild then none else originRight,
        insertAfter := true,
        seq := doc.maxSeq + 1 }

/-- `localInsertFugue` from crdts.ts. -/
def localInsertFugue {T : Type} (integrate : Doc T → Item T → Option (Doc T)) (doc : Doc T)
    (agent : String) (pos : Nat) (c : T) : Option (Doc T) :=
  match fugueItemFor doc agent pos c with
  | none => none
  | some item => integrate doc item

/-- Scan of `localInsertSync9`: walk forward over children of the same
parent anchor, rebasing the parent at each child, until an item with
content or a non-child is met. Returns the final `(originLeft,
insertAfter)` pair. -/
def sync9ParentScan {T : Type} :
    List (Item T) → Option ItemId → Option ItemId → Bool → Option ItemId × Bool
  | [], _, ol, ia => (ol, ia)
  | nextItem :: rest, parentIdBase, ol, ia =>
    if nextItem.originLeft == parentIdBase then
      if nextItem.content.isSome then (some nextItem.id, false)
      else sync9ParentScan rest (some nextItem.id) (some nextItem.id) false
    else (ol, ia)

/-- `localInsertSync9` from crdts.ts. -/
def localInsertSync9 {T : Type} (integrate : Doc T → Item T → Option (Doc T)) (doc : Doc T)
    (agent : String) (pos : Nat) (c : T) : Option (Doc T) :=
  match findItemAtPos doc pos true with
  | none => none
  | some i =>
    let parentIdBase := idAt doc.content ((i : Int) - 1)
    let st := sync9ParentScan (doc.content.drop i) parentIdBase parentIdBase true
    integrate doc
      { content := some c,
        id := (agent, nextSeqFor doc agent),
        isDeleted := false,
        originLeft := st.1,
        insertAfter := st.2,
        originRight := none,
        seq := 0 }

/-- `localDelete` from crdts.ts: find the visible position, mark the
item deleted, decrement `length`. Indexing `doc.content` out of bounds
(JS reads `.isDeleted` of `undefined`) is the second `none`. -/
def localDelete {T : Type} (doc : Doc T) (pos : Nat) : Option (Doc T) :=
  match findItemAtPos doc pos false with
  | none => none
  | some i =>
    match doc.content.get? i with
    | none => none
    | some item =>
      if item.isDeleted then some doc
      else
        some { doc with
                 content := doc.content.set i ({ item with isDeleted := true }),
                 length := doc.length - 1 }

/-- One pass of the merge loop of `mergeInto`: try each still-pending
item, integrating those that are causally ready. Returns the updated
document, the updated pending list, and how many items were merged on
this pass; `none` when an integration failed. -/
def mergePass {T : Type} (integrate : Doc T → Item T → Option (Doc T)) (dest : Doc T) :
    List (Option (Item T)) → Option (Doc T × List (Option (Item T)) × Nat)
  | [] => some (dest, [], 0)
  | none :: rest =>
    (mergePass integrate dest rest).map fun (d, r, n) => (d, none :: r, n)
  | some op :: rest =>
    if canInsertNow op dest then
      match integrate dest op with
      | none => none
      | some d₁ =>
        (mergePass integrate d₁ rest).map fun (d, r, n) => (d, none :: r, n + 1)
    else
      (mergePass integrate dest rest).map fun (d, r, n) => (d, some op :: r, n)

/-- Driver loop of `mergeInto`: repeat passes while items remain. A
pass that merges nothing is the failed `assert(mergedOnThisPass)`. The
fuel starts at the number of missing items, which suffices because every
successful pass merges at least one item. -/
def mergeLoop {T : Type} (integrate : Doc T → Item T → Option (Doc T)) :
    Nat → Doc T → List (Option (Item T)) → Option (Doc T)
  | fuel, dest, missing =>
    if missing.all Option.isNone then some dest
    else
      match fuel with
      | 0 => none
      | fuel' + 1 =>
        match mergePass integrate dest missing with
        | none => none
        | some (d, missing', merged) =>
          if merged = 0 then none
          else mergeLoop integrate fuel' d missing'

/-- `mergeInto` from crdts.ts: integrate into `dest` all items of `src`
that have content and are missing from `dest.version`, in causal order. -/
def mergeInto {T : Type} (integrate : Doc T → Item T → Option (Doc T)) (dest src : Doc T) :
    Option (Doc T) :=
  let missing := (src.content.filter fun op =>
    op.content.isSome && !isInVersion (some op.id) dest.version).map some
  mergeLoop integrate missing.length dest missing

/-- The five exported algorithms of crdts.ts, as the pairing of a local
insert generator with an integration kernel. -/
inductive Alg | yjsMod | yjs | automerge | sync9 | fugue
deriving DecidableEq, Repr

/-- Integration kernel of each algorithm (the `integrate` field of the
exported records: fugue shares `integrateYjsMod`, automerge exports
`integrateRGASmol`). -/
def Alg.integrate {T : Type} : Alg → Doc T → Item T → Option (Doc T)
  | .yjsMod => integrateYjsMod
  | .yjs => integrateYjs
  | .automerge => integrateRGASmol
  | .sync9 => integrateSync9
  | .fugue => integrateYjsMod

/-- Local insert generator of each algorithm (the `localInsert` field of
the exported records). -/
def Alg.localIns {T : Type} : Alg → Doc T → String → Nat → T → Option (Doc T)
  | .yjsMod => localInsert integrateYjsMod
  | .yjs => localInsert integrateYjs
  | .automerge => localInsert integrateRGASmol
  | .sync9 => localInsertSync9 integrateSync9
  | .fugue => localInsertFugue integrateYjsMod

/-! ### Lemmas about the visible-position lookup -/

def rgaSpecLoop {T : Type} (content : List (Item T)) (parent : Int) (nseq : Nat)
    (nagent : String) : List (Item T) → Nat → Option Nat
  | [], i => some i
  | o :: rest, i =>
    match findItem content o.originLeft with
    | none => none
    | some oparent =>
      if oparent < parent
          ∨ (oparent = parent ∧ (nseq > o.seq ∨ (nseq = o.seq ∧ jsStrLt nagent o.id.1)))
        then some i
      else rgaSpecLoop content parent nseq nagent rest (i + 1)

def rgaDocOk {T : Type} (content : List (Item T)) : Bool :=
  (List.range content.length).all fun i =>
    match content.get? i with
    | none => true
    | some o =>
      match o.originLeft with
      | none => true
      | some _ =>
        match findItem content o.originLeft with
        | none => false
        | some q =>
          decide (0 ≤ q) && decide (q < (i : Int)) &&
            (match content.get? q.toNat with
             | none => false
             | some p => decide (p.seq < o.seq))

/-- Concrete three-item RGA document for the C3 witness (the result of
inserting 1, 2, then 3-at-position-0 with the automerge generator). -/
def c3Content : List (Item Nat) :=
  [⟨some 3, ("a", 2), none, none, 3, true, false⟩,
   ⟨some 1, ("a", 0), none, none, 1, true, false⟩,
   ⟨some 2, ("a", 1), some ("a", 0), none, 2, true, false⟩]

/-- Existing item of the C4 witness scenario (agent `c`). -/
def c4Item : Item Nat := ⟨some 1, ("c", 0), none, none, 1, true, false⟩

/-- New item of the C4 witness scenario (agent `b`, tie on both
origins with `c4Item`). -/
def c4NewItem : Item Nat := ⟨some 9, ("b", 0), none, none, 1, true, false⟩

/-- One-item document of the C4 witness scenario. -/
def c4Doc : Doc Nat := ⟨[c4Item], [("c", 0)], 1, 0⟩

/-- Items of the C5 witness scenario: two sync9 inserts by agent `a`,
then a third item attaching to the before-anchor of the second. -/
def s9ItemA : Item Nat := ⟨some 1, ("a", 0), none, none, 0, true, false⟩

/-- Second sync9 item (the parent that gets split). -/
def s9ItemB : Item Nat := ⟨some 2, ("a", 1), some ("a", 0), none, 0, true, false⟩

/-- Sync9 document containing `s9ItemA` and `s9ItemB`. -/
def s9DocAB : Doc Nat := ⟨[s9ItemA, s9ItemB], [("a", 1)], 2, 0⟩

/-- New sync9 item attaching before `s9ItemB` (`insertAfter = false`). -/
def s9ItemC : Item Nat := ⟨some 3, ("a", 2), some ("a", 1), none, 0, false, false⟩

/-- Node data read by `insertIntoSiblings` in fugue-max-simple.ts: the
sibling comparisons use only the node's `rightOrigin` and `id.sender`.
`rightOrigin` is abstracted as a key of type `K` (the JS code compares
rightOrigin nodes by reference identity, and `isLess` gives the
existing-list order on them). -/
structure SibNode (K : Type) where
  rOrigin : K
  sender : String
deriving DecidableEq, Repr

/-- The splice loop shared by both branches of `insertIntoSiblings`:
advance the index while the continue-condition `c node sib` holds and
insert the node before the first sibling where it fails. -/
def skipInsert {α : Type} (c : α → α → Bool) (node : α) : List α → List α
  | [] => [node]
  | s :: rest => if c node s then s :: skipInsert c node rest else node :: s :: rest

/-- Right-children branch of `insertIntoSiblings`: continue while
`isLess(node.rightOrigin, sib.rightOrigin) || (node.rightOrigin ===
sib.rightOrigin && node.id.sender > sib.id.sender)`. -/
def insertRightSib {K : Type} [DecidableEq K] (less : K → K → Bool) (node : SibNode K)
    (sibs : List (SibNode K)) : List (SibNode K) :=
  skipInsert
    (fun n s => less n.rOrigin s.rOrigin || (n.rOrigin == s.rOrigin
      && jsStrLt s.sender n.sender))
    node sibs

/-- Left-children branch of `insertIntoSiblings`: continue while
`node.id.sender > sib.id.sender`. -/
def insertLeftSib {K : Type} (node : SibNode K) (sibs : List (SibNode K)) :
    List (SibNode K) :=
  skipInsert (fun n s => jsStrLt s.sender n.sender) node sibs

/-- Order maintained on the right-children arrays: reverse existing-list
order of the rightOrigins, ties broken by sender ascending. -/
def rightSibOrdered {K : Type} (less : K → K → Bool) (a b : SibNode K) : Prop :=
  less b.rOrigin a.rOrigin = true ∨ (a.rOrigin = b.rOrigin ∧ ¬ b.sender < a.sender)

/-- Modelled from the spec (for comparison with the source definition
`fugueItemFor`): the visible right neighbor of an insertion at content
index `i` (the item `content[i]`) is a "right child" of the new item's
`originLeft` (`content[i-1]`) when the neighbor's own `originLeft` is
that same item and the neighbor has no `originRight` — i.e. the new
item is being inserted inside a chain of right descendants of its left
neighbor. -/
def specRightChild {T : Type} (doc : Doc T) (i : Nat) : Bool :=
  match doc.content.get? i with
  | none => false
  | some r => r.originLeft == idAt doc.content ((i : Int) - 1) && r.originRight.isNone

/-- First item of the C6 scenario: `a` inserted by the fugue generator
into the empty document. -/
def fugueItemA : Item Nat := ⟨some 1, ("a", 0), none, none, 1, true, false⟩

/-- Second item of the C6 scenario: appended after `fugueItemA`, making
it a right child of `fugueItemA`. -/
def fugueItemB : Item Nat := ⟨some 2, ("a", 1), some ("a", 0), none, 1, true, false⟩

/-- Document after the first fugue insert. -/
def fugueDocA : Doc Nat := ⟨[fugueItemA], [("a", 0)], 1, 0⟩

/-- Document after both fugue inserts: `fugueItemB` is a right child of
`fugueItemA`. -/
def fugueDocAB : Doc Nat := ⟨[fugueItemA, fugueItemB], [("a", 1)], 2, 0⟩

/-- Gap item for the C2 counterexample: seq 5 from agent `b` on a
document that has never seen agent `b`. -/
def c2GapItem : Item Nat :=
  { content := some 5, id := ("b", 5), originLeft := none, originRight := none,
    seq := 1, insertAfter := true, isDeleted := false }

/-- Good item for the C2 witness: the first insert of agent `a`. -/
def c2SeqItem : Item Nat :=
  { content := some 3, id := ("a", 0), originLeft := none, originRight := none,
    seq := 1, insertAfter := true, isDeleted := false }

/-- All pending entries of a merge worklist carry content. -/
def goodMissing {T : Type} (missing : List (Option (Item T))) : Prop :=
  ∀ x : Item T, some x ∈ missing → x.content.isSome = true

/-- Documents reachable from `newDoc` under one algorithm by local
inserts, local deletes, direct integration of items that carry content
(as every item produced by the generators does), and merges. -/
inductive Reached {T : Type} (alg : Alg) : Doc T → Prop
  | init : Reached alg newDoc
  | localIns (d : Doc T) (agent : String) (pos : Nat) (c : T) (d' : Doc T) :
      Reached alg d → Alg.localIns alg d agent pos c = some d' → Reached alg d'
  | localDel (d : Doc T) (pos : Nat) (d' : Doc T) :
      Reached alg d → localDelete d pos = some d' → Reached alg d'
  | integrate (d : Doc T) (x : Item T) (d' : Doc T) :
      Reached alg d → x.content.isSome = true → Alg.integrate alg d x = some d' →
      Reached alg d'
  | merge (dest src : Doc T) (d' : Doc T) :
      Reached alg dest → mergeInto (Alg.integrate alg) dest src = some d' → Reached alg d'

/-- One-step document for the C9 witness: `newDoc` after a yjsMod local
insert of 7 by agent a at position 0. -/
def c9Doc : Doc Nat :=
  { content := [{ content := some 7, id := ("a", 0), originLeft := none,
                  originRight := none, seq := 1, insertAfter := true,
                  isDeleted := false }],
    version := [("a", 0)], length := 1, maxSeq := 0 }

theorem jsStrLt_iff (a b : String) : jsStrLt a b = true ↔ a < b := by
  unfold jsStrLt
  rw [decide_eq_true_iff]
  exact String.lt_iff_toList_lt.symm

theorem jsStrLt_eq_false_iff (a b : String) : jsStrLt a b = false ↔ ¬ a < b := by
  rw [← jsStrLt_iff]
  cases h : jsStrLt a b <;> simp

theorem skip_eq_not_visible {T : Type} (item : Item T) :
    (item.isDeleted || item.content.isNone) = !visibleItem item := by
  unfold visibleItem
  cases item.isDeleted <;> cases item.content <;> rfl

theorem countVisible_cons {T : Type} (item : Item T) (rest : List (Item T)) :
    countVisible (item :: rest) = countVisible rest + if visibleItem item then 1 else 0 := by
  simp [countVisible, List.countP_cons]

theorem findItemAtPosAux_isSome {T : Type} (l : List (Item T)) (pos : Nat) (stick : Bool)
    (i : Nat) : (findItemAtPosAux l pos stick i).isSome ↔ pos ≤ countVisible l := by
  induction l generalizing pos i with
  | nil =>
    simp only [findItemAtPosAux, countVisible, List.countP_nil]
    by_cases h : pos = 0 <;> simp [h]
  | cons item rest ih =>
    rw [findItemAtPosAux, skip_eq_not_visible, countVisible_cons]
    by_cases hv : visibleItem item
    · by_cases hs : stick ∧ pos = 0
      · simp [hs, hs.2]
      · simp only [hs, if_false, hv, Bool.not_true, Bool.false_eq_true, if_false]
        by_cases hp : pos = 0
        · simp [hp]
        · simp only [hp, if_false, if_true]
          rw [ih (pos - 1) (i + 1)]
          omega
    · by_cases hs : stick ∧ pos = 0
      · simp [hs, hs.2]
      · simp only [hs, if_false, hv, Bool.not_false, if_true, Bool.false_eq_true]
        rw [ih pos (i + 1)]
        simp [hv]

/-- Claim C8 counterexample input: on the empty document, position `1`
does not exceed the visible length plus one, yet the lookup throws. -/
theorem claim_C8_counterexample :
    findItemAtPos (newDoc : Doc Nat) 1 false = none
      ∧ ¬ (1 > countVisible (newDoc : Doc Nat).content + 1) := by
  constructor
  · rfl
  · decide

/-- Claim C8 (amended): `findItemAtPos` fails exactly when the requested
position (counting only visible items) exceeds the visible length, and
returns a content-array index for every position up to and including the
visible length. This holds for both values of the sync9 `stick_end`
flag, so in particular for the lookups of `localInsert` and
`localDelete`. -/
theorem claim_C8_amended {T : Type} (doc : Doc T) (pos : Nat) (stick : Bool) :
    ((findItemAtPos doc pos stick = none) ↔ pos > countVisible doc.content)
      ∧ ((∃ i, findItemAtPos doc pos stick = some i) ↔ pos ≤ countVisible doc.content) := by
  have h := findItemAtPosAux_isSome doc.content pos stick 0
  rw [show findItemAtPosAux doc.content pos stick 0 = findItemAtPos doc pos stick from rfl] at h
  cases hcase : findItemAtPos doc pos stick with
  | none =>
    rw [hcase] at h
    simp only [Option.isSome_none, Bool.false_eq_true, false_iff, not_le] at h
    refine ⟨by simpa using h, ?_⟩
    constructor
    · rintro ⟨i, hi⟩
      cases hi
    · intro hle
      omega
  | some j =>
    rw [hcase] at h
    simp only [Option.isSome_some, true_iff] at h
    refine ⟨?_, by simp [h]⟩
    constructor
    · intro hc
      cases hc
    · intro hgt
      omega

/-! ### Lemmas for the out-of-bounds delete (claim C10) -/

theorem countVisible_cons_vis {T : Type} {item : Item T} (rest : List (Item T))
    (h : visibleItem item = true) : countVisible (item :: rest) = countVisible rest + 1 := by
  rw [countVisible_cons, h, if_pos rfl]

theorem countVisible_cons_inv {T : Type} {item : Item T} (rest : List (Item T))
    (h : visibleItem item = false) : countVisible (item :: rest) = countVisible rest := by
  rw [countVisible_cons, h]
  simp

theorem findItemAtPosAux_at_count {T : Type} (l : List (Item T)) (i : Nat) :
    findItemAtPosAux l (countVisible l) false i = some (i + l.length) := by
  induction l generalizing i with
  | nil => simp [findItemAtPosAux, countVisible]
  | cons item rest ih =>
    rw [findItemAtPosAux, skip_eq_not_visible]
    cases hv : visibleItem item with
    | true =>
      rw [countVisible_cons_vis rest hv, if_neg (by simp), if_neg (by simp),
        if_neg (by omega), Nat.add_sub_cancel, ih (i + 1)]
      simp only [List.length_cons]
      congr 1
      omega
    | false =>
      rw [countVisible_cons_inv rest hv, if_neg (by simp), if_pos (by simp), ih (i + 1)]
      simp only [List.length_cons]
      congr 1
      omega

/-- Claim C10: at `pos` equal to the visible length, the position check
of `findItemAtPos` accepts and returns the one-past-the-end index
`doc.content.length`, so `localDelete` dereferences a missing entry: in
the total embedding the content lookup yields `none` and the error
branch is taken, even though the position check itself did not fail. -/
theorem claim_C10 {T : Type} (doc : Doc T) (L : Nat) (hL : L = countVisible doc.content) :
    findItemAtPos doc L false = some doc.content.length
      ∧ doc.content.get? doc.content.length = none
      ∧ localDelete doc L = none := by
  subst hL
  have h1 : findItemAtPos doc (countVisible doc.content) false = some doc.content.length := by
    have := findItemAtPosAux_at_count doc.content 0
    simpa [findItemAtPos] using this
  have h2 : doc.content.get? doc.content.length = none := by
    simp [List.get?_eq_none]
  refine ⟨h1, h2, ?_⟩
  simp [localDelete, h1, h2]

/-! ### Claim C3: the RGA scan and its early-break optimization -/

theorem rgaSmolLoop_eq_rgaLoop {T : Type} (content : List (Item T)) (P : Int) (nseq : Nat)
    (nagent : String) : ∀ (rest : List (Item T)) (i : Nat),
    rgaSmolLoop content P nseq nagent rest i = rgaLoop content P nseq nagent rest i := by
  intro rest
  induction rest with
  | nil => intro i; rfl
  | cons o rest' ih =>
    intro i
    rw [rgaSmolLoop, rgaLoop]
    by_cases hE : o.seq < nseq
    · simp [hE]
    · simp only [if_neg hE]
      cases hf : findItem content o.originLeft with
      | none => rfl
      | some op =>
        dsimp only
        by_cases h1 : op < P
        · rw [if_pos (Or.inl h1), if_pos h1]
        · by_cases h2 : op = P
          · by_cases h3 : nseq = o.seq
            · by_cases h4 : jsStrLt nagent o.id.1
              · rw [if_pos (Or.inr ⟨h2, h3, h4⟩), if_neg h1, if_pos h2, if_pos h3, if_pos h4]
              · rw [if_neg ?_, if_neg h1, if_pos h2, if_pos h3,
                  if_neg (by simpa using h4), ih]
                rintro (hc | ⟨-, -, hc⟩)
                · exact h1 hc
                · exact h4 hc
            · rw [if_neg ?_, if_neg h1, if_pos h2, if_neg h3, ih]
              rintro (hc | ⟨-, hc, -⟩)
              · exact h1 hc
              · exact h3 hc
          · rw [if_neg ?_, if_neg h1, if_neg h2, ih]
            rintro (hc | ⟨hc, -⟩)
            · exact h1 hc
            · exact h2 hc

theorem rgaDocOk_spec {T : Type} (content : List (Item T)) (hinv : rgaDocOk content = true)
    (i : Nat) (o : Item T) (ho : content.get? i = some o) (oid : ItemId)
    (hol : o.originLeft = some oid) :
    ∃ q : Int, findItem content o.originLeft = some q ∧ 0 ≤ q ∧ q < (i : Int) ∧
      ∃ p : Item T, content.get? q.toNat = some p ∧ p.seq < o.seq := by
  have hi : i < content.length := (List.get?_eq_some.mp ho).1
  have h := (List.all_eq_true.mp hinv) i (List.mem_range.mpr hi)
  rw [ho] at h
  dsimp only at h
  rw [hol] at h
  dsimp only at h
  rw [hol]
  cases hf : findItem content (some oid) with
  | none =>
    rw [hf] at h
    cases h
  | some q =>
    rw [hf] at h
    simp only [Bool.and_eq_true, decide_eq_true_eq] at h
    obtain ⟨⟨hq0, hqi⟩, h⟩ := h
    refine ⟨q, rfl, hq0, hqi, ?_⟩
    cases hp : content.get? q.toNat with
    | none => rw [hp] at h; cases h
    | some p =>
      rw [hp] at h
      simp only [decide_eq_true_eq] at h
      exact ⟨p, rfl, h⟩

theorem rgaLoop_eq_rgaSpecLoop {T : Type} (content : List (Item T)) (P : Int) (nseq : Nat)
    (nagent : String) (hP : -1 ≤ P) (hinv : rgaDocOk content = true) :
    ∀ (rest : List (Item T)) (i : Nat), rest = content.drop i → (P + 1).toNat ≤ i →
      (∀ j o, (P + 1).toNat ≤ j → j < i → content.get? j = some o → nseq ≤ o.seq) →
      rgaLoop content P nseq nagent rest i = rgaSpecLoop content P nseq nagent rest i := by
  intro rest
  induction rest with
  | nil => intro i _ _ _; rfl
  | cons o rest' ih =>
    intro i hdrop hstart hNE
    have hio : content.get? i = some o := by
      have h0 : (content.drop i).get? 0 = some o := by rw [← hdrop]; rfl
      simpa [List.get?_drop] using h0
    have hdrop' : rest' = content.drop (i + 1) := by
      have ht : (content.drop i).tail = content.drop (i + 1) := by
        rw [List.tail_drop]
      rw [← hdrop] at ht
      simpa using ht
    rw [rgaLoop, rgaSpecLoop]
    by_cases hE : o.seq < nseq
    · rw [if_pos hE]
      cases hol : o.originLeft with
      | none =>
        rw [show findItem content (none : Option ItemId) = some (-1) from rfl]
        dsimp only
        rcases hP.lt_or_eq with hPgt | hPeq
        · rw [if_pos (Or.inl hPgt)]
        · rw [if_pos (Or.inr ⟨hPeq, Or.inl hE⟩)]
      | some oid =>
        obtain ⟨q, hq, hq0, hqi, p, hp, hps⟩ := rgaDocOk_spec content hinv i o hio oid hol
        rw [hol] at hq
        rw [hq]
        dsimp only
        have hqP : q ≤ P := by
          by_contra hgt
          push_neg at hgt
          have hjs : (P + 1).toNat ≤ q.toNat := Int.toNat_le_toNat (by omega)
          have hji : q.toNat < i := by omega
          have := hNE q.toNat p hjs hji hp
          omega
        rcases lt_or_eq_of_le hqP with hlt | heq
        · rw [if_pos (Or.inl hlt)]
        · rw [if_pos (Or.inr ⟨heq, Or.inl hE⟩)]
    · rw [if_neg hE]
      cases hf : findItem content o.originLeft with
      | none => rfl
      | some op =>
        dsimp only
        have hrec := ih (i + 1) hdrop' (by omega) (fun j o' hjs hji hjo => by
          rcases Nat.lt_succ_iff_lt_or_eq.mp hji with hj | hj
          · exact hNE j o' hjs hj hjo
          · subst hj
            rw [hio] at hjo
            injection hjo with hjo
            subst hjo
            omega)
        by_cases h1 : op < P
        · rw [if_pos h1, if_pos (Or.inl h1)]
        · by_cases h2 : op = P
          · by_cases h3 : nseq = o.seq
            · by_cases h4 : jsStrLt nagent o.id.1
              · rw [if_neg h1, if_pos h2, if_neg hE, if_pos h3, if_pos h4,
                  if_pos (Or.inr ⟨h2, Or.inr ⟨h3, h4⟩⟩)]
              · rw [if_neg h1, if_pos h2, if_neg hE, if_pos h3, if_neg (by simpa using h4),
                  if_neg ?_, hrec]
                rintro (hc | ⟨-, hc | ⟨-, hc⟩⟩)
                · exact h1 hc
                · exact hE hc
                · exact (by simpa using h4 : ¬ _) hc
            · rw [if_neg h1, if_pos h2, if_neg hE, if_neg h3, if_neg ?_, hrec]
              rintro (hc | ⟨-, hc | ⟨hc, -⟩⟩)
              · exact h1 hc
              · exact hE hc
              · exact h3 hc
          · rw [if_neg h1, if_neg h2, if_neg ?_, hrec]
            rintro (hc | ⟨hc, -⟩)
            · exact h1 hc
            · exact h2 hc

/-- Claim C3 combined statement. Under the document well-formedness
invariant `rgaDocOk` — every item's originLeft resolves to an earlier
index whose item has a strictly smaller `seq`, which holds of reachable
RGA documents — (1) the nested early-break scan of `integrateRGA` and
the flattened early-break scan of `integrateRGASmol` agree everywhere,
and (2) from the scan start `parent + 1` the early-break scan picks the
same destination as the spec's flattened stop condition with no early
break (`rgaSpecLoop`): stop at cursor item `o` exactly when
`oparent < parent`, or `oparent == parent` and (`newItem.seq > o.seq`,
or equal seqs and lexicographically smaller agent). -/
theorem claim_C3 {T : Type} (content : List (Item T)) (P : Int) (nseq : Nat) (nagent : String)
    (hP : -1 ≤ P) (hinv : rgaDocOk content = true) :
    (∀ (rest : List (Item T)) (i : Nat),
      rgaSmolLoop content P nseq nagent rest i = rgaLoop content P nseq nagent rest i)
    ∧ rgaLoop content P nseq nagent (content.drop (P + 1).toNat) (P + 1).toNat
        = rgaSpecLoop content P nseq nagent (content.drop (P + 1).toNat) (P + 1).toNat :=
  ⟨fun rest i => rgaSmolLoop_eq_rgaLoop content P nseq nagent rest i,
   rgaLoop_eq_rgaSpecLoop content P nseq nagent hP hinv _ _ rfl (le_refl _)
     (fun _ _ hjs hji _ => absurd hji (by omega))⟩

/-- Witness for claim C3 at the concrete three-item document. -/
theorem claim_C3_witness :
    rgaSmolLoop c3Content (-1) 5 "x" c3Content 0 = rgaLoop c3Content (-1) 5 "x" c3Content 0
      ∧ rgaLoop c3Content (-1) 5 "x" (c3Content.drop ((-1 : Int) + 1).toNat)
            ((-1 : Int) + 1).toNat
          = rgaSpecLoop c3Content (-1) 5 "x" (c3Content.drop ((-1 : Int) + 1).toNat)
              ((-1 : Int) + 1).toNat := by
  have h := claim_C3 c3Content (-1) 5 "x" (by decide) (by decide)
  exact ⟨h.1 c3Content 0, h.2⟩

/-! ### Claim C4: the YjsMod scan behaviour -/

theorem yjsModLoop_boundary {T : Type} (content : List (Item T)) (left right : Int)
    (agent : String) (rest : List (Item T)) (i d : Nat) (s : Bool)
    (h : i = content.length ∨ (i : Int) = right) :
    yjsModLoop content left right agent rest i d s = some (if s then d else i) := by
  rw [yjsModLoop.eq_def]
  simp only [if_pos h]

theorem yjsModLoop_dest_advance {T : Type} (content : List (Item T)) (left right : Int)
    (agent : String) (rest : List (Item T)) (i d d' : Nat) :
    yjsModLoop content left right agent rest i d false
      = yjsModLoop content left right agent rest i d' false := by
  rw [yjsModLoop.eq_def, yjsModLoop.eq_def]
  simp

theorem yjsModLoop_tie {T : Type} (content : List (Item T)) (left right : Int) (agent : String)
    (other : Item T) (rest₁ : List (Item T)) (i d : Nat) (s : Bool)
    (hlen : ¬ i = content.length) (hr : ¬ (i : Int) = right)
    (holeft : findItem content other.originLeft = some left)
    (horight : rightIdxOf content other.originRight = some right) :
    (jsStrLt agent other.id.1 = true →
      yjsModLoop content left right agent (other :: rest₁) i d s = some (if s then d else i))
    ∧ (jsStrLt agent other.id.1 = false →
      yjsModLoop content left right agent (other :: rest₁) i d s
        = yjsModLoop content left right agent rest₁ (i + 1) (if s then d else i) false) := by
  constructor <;> intro hag <;>
    · rw [yjsModLoop.eq_def]
      simp only [if_neg (not_or.mpr ⟨hlen, hr⟩), holeft, horight]
      simp [lt_self_iff_false, hag]

theorem integrateYjsMod_splice {T : Type} (doc : Doc T) (x : Item T) (k : Nat)
    (left right : Int)
    (hseq : seqOk doc x = true)
    (hfl : findItem doc.content x.originLeft = some left)
    (hfr : rightIdxOf doc.content x.originRight = some right)
    (hloop : yjsModLoop doc.content left right x.id.1 (doc.content.drop (left + 1).toNat)
      (left + 1).toNat (left + 1).toNat false = some k) :
    integrateYjsMod doc x = some
      { content := jsSplice doc.content k x,
        version := vSet doc.version x.id.1 x.id.2,
        length := if x.isDeleted then doc.length else doc.length + 1,
        maxSeq := doc.maxSeq } := by
  unfold integrateYjsMod
  rw [hseq]
  simp only [Bool.not_true, Bool.false_eq_true, if_false, hfl, Option.some_bind, hfr, hloop]
  rfl

/-- Claim C4: behaviour of the YjsMod scan. (1) When the cursor reaches
the `right` boundary or the end of content, the scan terminates with the
pending destination (which is the cursor itself when not scanning).
(2) When `scanning` is false, the pending destination is irrelevant —
it advances to the cursor. (3) In the `oleft == left`, `oright == right`
case the scan stops exactly when the new item's agent is
lexicographically less than the cursor item's agent, and otherwise
clears the scanning flag and continues with the next cursor. (4) On
success, `integrateYjsMod` splices the new item into `doc.content`
exactly at the scan's final `destIdx` (and updates version and visible
length). -/
theorem claim_C4 {T : Type} (content : List (Item T)) (left right : Int) (agent : String) :
    (∀ (rest : List (Item T)) (i d : Nat) (s : Bool),
      i = content.length ∨ (i : Int) = right →
        yjsModLoop content left right agent rest i d s = some (if s then d else i))
    ∧ (∀ (rest : List (Item T)) (i d d' : Nat),
        yjsModLoop content left right agent rest i d false
          = yjsModLoop content left right agent rest i d' false)
    ∧ (∀ (other : Item T) (rest₁ : List (Item T)) (i d : Nat) (s : Bool),
        ¬ i = content.length → ¬ (i : Int) = right →
        findItem content other.originLeft = some left →
        rightIdxOf content other.originRight = some right →
        (jsStrLt agent other.id.1 = true →
          yjsModLoop content left right agent (other :: rest₁) i d s
            = some (if s then d else i))
        ∧ (jsStrLt agent other.id.1 = false →
          yjsModLoop content left right agent (other :: rest₁) i d s
            = yjsModLoop content left right agent rest₁ (i + 1) (if s then d else i) false))
    ∧ (∀ (doc : Doc T) (x : Item T) (k : Nat),
        seqOk doc x = true →
        findItem doc.content x.originLeft = some left →
        rightIdxOf doc.content x.originRight = some right →
        yjsModLoop doc.content left right x.id.1 (doc.content.drop (left + 1).toNat)
          (left + 1).toNat (left + 1).toNat false = some k →
        integrateYjsMod doc x = some
          { content := jsSplice doc.content k x,
            version := vSet doc.version x.id.1 x.id.2,
            length := if x.isDeleted then doc.length else doc.length + 1,
            maxSeq := doc.maxSeq }) :=
  ⟨fun rest i d s h => yjsModLoop_boundary content left right agent rest i d s h,
   fun rest i d d' => yjsModLoop_dest_advance content left right agent rest i d d',
   fun other rest₁ i d s hlen hr holeft horight =>
     yjsModLoop_tie content left right agent other rest₁ i d s hlen hr holeft horight,
   fun doc x k hseq hfl hfr hloop =>
     integrateYjsMod_splice doc x k left right hseq hfl hfr hloop⟩

/-- Witness for claim C4 at the concrete one-item document: the tie
case stops in front of the rival agent's item and the new item is
spliced at index 0. -/
theorem claim_C4_witness :
    yjsModLoop [c4Item] (-1) 1 "b" [c4Item] 0 0 false = some 0
      ∧ integrateYjsMod c4Doc c4NewItem
          = some ⟨[c4NewItem, c4Item], [("c", 0), ("b", 0)], 2, 0⟩ := by
  have h := claim_C4 [c4Item] (-1) 1 "b"
  have h3 := (h.2.2.1 c4Item [] 0 0 false (by decide) (by decide) rfl rfl).1 rfl
  have h4 := h.2.2.2 c4Doc c4NewItem 0 rfl rfl rfl rfl
  exact ⟨h3, h4⟩

/-! ### Claim C5: the sync9 split-marker case -/

theorem jsSplice_jsSplice {T : Type} (l : List T) (k : Nat) (m x : T) (hk : k ≤ l.length) :
    jsSplice (jsSplice l k m) (k + 1) x = l.take k ++ m :: x :: l.drop k := by
  have hlen : (l.take k).length = k := by
    rw [List.length_take]
    omega
  unfold jsSplice
  rw [List.take_append_eq_append_take, List.drop_append_eq_append_drop, hlen]
  rw [List.take_of_length_le (le_of_eq_of_le hlen (by omega)),
    List.drop_eq_nil_of_le (le_of_eq_of_le hlen (by omega))]
  simp [show k + 1 - k = 1 from by omega]

theorem getArrayL_splice_invisible {T : Type} (l : List (Item T)) (k : Nat) (m : Item T)
    (hm : m.content = none) : getArrayL (jsSplice l k m) = getArrayL l := by
  have hfm : (if m.isDeleted then none else m.content) = none := by
    cases m.isDeleted <;> simp [hm]
  unfold jsSplice getArrayL
  rw [List.filterMap_append, List.filterMap_cons, hfm, ← List.filterMap_append,
    List.take_append_drop]

theorem countVisible_splice_invisible {T : Type} (l : List (Item T)) (k : Nat) (m : Item T)
    (hm : m.content = none) : countVisible (jsSplice l k m) = countVisible l := by
  have hvm : visibleItem m = false := by
    unfold visibleItem
    cases m.isDeleted <;> simp [hm]
  unfold jsSplice countVisible
  rw [List.countP_append, List.countP_cons, hvm]
  simp only [Bool.false_eq_true, if_false, add_zero]
  rw [← List.countP_append, List.take_append_drop]

/-- Claim C5: when the new sync9 item attaches to the before-anchor
(`insertAfter = false`) of a parent that resolves to index `k` and has
non-null content, integration succeeds and produces exactly
`take k ++ marker :: newItem :: drop k` — the content-null clone of the
parent immediately before it, with the new item between the marker and
the original parent — bypassing the sibling scan; and splicing the
marker alone changes neither the visible array nor the visible count. -/
theorem claim_C5 {T : Type} (doc : Doc T) (x : Item T) (k : Nat) (pitem : Item T)
    (hseq : seqOk doc x = true)
    (hafter : x.insertAfter = false)
    (horigin : x.originLeft.isSome = true)
    (hfind : findItem2 doc.content x.originLeft x.insertAfter = some (k : Int))
    (hk : doc.content.get? k = some pitem)
    (hc : pitem.content.isSome = true) :
    integrateSync9 doc x = some
        { content := doc.content.take k ++ ({ pitem with content := none } : Item T)
            :: x :: doc.content.drop k,
          version := vSet doc.version x.id.1 x.id.2,
          length := if !x.isDeleted && x.content.isSome then doc.length + 1 else doc.length,
          maxSeq := doc.maxSeq }
      ∧ getArrayL (jsSplice doc.content k ({ pitem with content := none })) = getArrayL doc.content
      ∧ countVisible (jsSplice doc.content k ({ pitem with content := none }))
          = countVisible doc.content := by
  obtain ⟨hklt, -⟩ := List.get?_eq_some.mp hk
  refine ⟨?_, getArrayL_splice_invisible _ _ _ rfl, countVisible_splice_invisible _ _ _ rfl⟩
  unfold integrateSync9
  rw [hseq]
  simp only [Bool.not_true, Bool.false_eq_true, if_false, hfind, Option.some_bind]
  rw [if_pos ⟨Int.natCast_nonneg k, horigin, hafter⟩]
  rw [show ((k : Int)).toNat = k from Int.toNat_natCast k, hk]
  dsimp only
  rw [if_pos hc, jsSplice_jsSplice doc.content k _ x (by omega)]

/-- Witness for claim C5 at the concrete three-item sync9 scenario. -/
theorem claim_C5_witness :
    integrateSync9 s9DocAB s9ItemC = some
        ⟨[s9ItemA, ⟨none, ("a", 1), some ("a", 0), none, 0, true, false⟩, s9ItemC, s9ItemB],
          [("a", 2)], 3, 0⟩
      ∧ getArrayL (jsSplice s9DocAB.content 1
          (⟨none, ("a", 1), some ("a", 0), none, 0, true, false⟩ : Item Nat))
          = getArrayL s9DocAB.content := by
  have h := claim_C5 s9DocAB s9ItemC 1 s9ItemB rfl rfl rfl rfl rfl rfl
  exact ⟨h.1, h.2.1⟩

/-! ### Claim C7: sibling ordering in the fugue-max tree backend -/

theorem skipInsert_mem {α : Type} (c : α → α → Bool) (node x : α) (l : List α)
    (hx : x ∈ skipInsert c node l) : x = node ∨ x ∈ l := by
  induction l with
  | nil =>
    simp [skipInsert] at hx
    exact Or.inl hx
  | cons s rest ih =>
    unfold skipInsert at hx
    by_cases hc : c node s
    · rw [if_pos hc] at hx
      rcases List.mem_cons.mp hx with h | h
      · exact Or.inr (List.mem_cons.mpr (Or.inl h))
      · rcases ih h with h₁ | h₁
        · exact Or.inl h₁
        · exact Or.inr (List.mem_cons.mpr (Or.inr h₁))
    · rw [if_neg hc] at hx
      rcases List.mem_cons.mp hx with h | h
      · exact Or.inl h
      · exact Or.inr h

theorem skipInsert_pairwise {α : Type} (c : α → α → Bool) (R : α → α → Prop)
    (hct : ∀ a b, c a b = true → R b a)
    (hcf : ∀ a b, c a b = false → R a b)
    (htrans : ∀ a b e, R a b → R b e → R a e)
    (node : α) (l : List α) (hl : l.Pairwise R) :
    (skipInsert c node l).Pairwise R := by
  induction l with
  | nil => simp [skipInsert]
  | cons s rest ih =>
    rw [List.pairwise_cons] at hl
    obtain ⟨hs, hrest⟩ := hl
    unfold skipInsert
    by_cases hc : c node s
    · rw [if_pos hc]
      rw [List.pairwise_cons]
      refine ⟨fun x hx => ?_, ih hrest⟩
      rcases skipInsert_mem c node x rest hx with h | h
      · exact h ▸ hct node s hc
      · exact hs x h
    · rw [if_neg hc]
      rw [List.pairwise_cons]
      have hns : R node s := hcf node s (by simpa using hc)
      refine ⟨fun x hx => ?_, List.pairwise_cons.mpr ⟨hs, hrest⟩⟩
      rcases List.mem_cons.mp hx with h | h
      · exact h ▸ hns
      · exact htrans node s x hns (hs x h)

/-- Claim C7 counterexample: two `insertIntoSiblings` calls produce a
left-children array in ascending sender order (`[a, b]`), not the
descending order the claim states; the same happens for the sender
tiebreak among right children with equal rightOrigins. -/
theorem claim_C7_counterexample :
    insertLeftSib (⟨0, "a"⟩ : SibNode Nat) (insertLeftSib ⟨0, "b"⟩ [])
        = [⟨0, "a"⟩, ⟨0, "b"⟩]
      ∧ ¬ List.Pairwise (fun x y : SibNode Nat => ¬ x.sender < y.sender)
          [⟨0, "a"⟩, ⟨0, "b"⟩]
      ∧ insertRightSib (fun a b : Nat => decide (a < b)) ⟨0, "a"⟩
          (insertRightSib (fun a b : Nat => decide (a < b)) ⟨0, "b"⟩ [])
        = [⟨0, "a"⟩, ⟨0, "b"⟩]
      ∧ ¬ List.Pairwise
          (fun x y : SibNode Nat => x.rOrigin = y.rOrigin → ¬ x.sender < y.sender)
          [⟨0, "a"⟩, ⟨0, "b"⟩] := by
  refine ⟨rfl, ?_, rfl, ?_⟩
  · intro h
    rw [List.pairwise_cons] at h
    exact h.1 ⟨0, "b"⟩ (by simp) ((jsStrLt_iff "a" "b").mp rfl)
  · intro h
    rw [List.pairwise_cons] at h
    exact h.1 ⟨0, "b"⟩ (by simp) rfl ((jsStrLt_iff "a" "b").mp rfl)

/-- Claim C7 (amended): each `insertIntoSiblings` call preserves
sortedness of the sibling arrays, with right children ordered by their
rightOrigin's existing-list position in reverse order and ties broken by
sender ascending, and left children ordered by sender ascending.
`less` is the existing-list order `isLess` on rightOrigins, assumed
transitive and total on distinct keys. -/
theorem claim_C7_amended {K : Type} [DecidableEq K] (less : K → K → Bool)
    (htr : ∀ a b e, less a b = true → less b e = true → less a e = true)
    (hconn : ∀ a b, a ≠ b → less a b = true ∨ less b a = true)
    (node lnode : SibNode K) (sibs lsibs : List (SibNode K))
    (hs : sibs.Pairwise (rightSibOrdered less))
    (hls : lsibs.Pairwise (fun a b => ¬ b.sender < a.sender)) :
    (insertRightSib less node sibs).Pairwise (rightSibOrdered less)
      ∧ (insertLeftSib lnode lsibs).Pairwise (fun a b => ¬ b.sender < a.sender) := by
  constructor
  · refine skipInsert_pairwise _ _ ?_ ?_ ?_ node sibs hs
    · intro a b hc
      rcases Bool.or_eq_true_iff.mp hc with h | h
      · exact Or.inl h
      · rcases Bool.and_eq_true_iff.mp h with ⟨h₁, h₂⟩
        refine Or.inr ⟨(beq_iff_eq.mp h₁).symm, ?_⟩
        exact lt_asymm ((jsStrLt_iff _ _).mp h₂)
    · intro a b hc
      rw [Bool.or_eq_false_iff] at hc
      obtain ⟨h₁, h₂⟩ := hc
      by_cases heq : a.rOrigin = b.rOrigin
      · refine Or.inr ⟨heq, ?_⟩
        rw [Bool.and_eq_false_iff] at h₂
        rcases h₂ with h₂ | h₂
        · exact absurd (beq_iff_eq.mpr heq) (by simp [h₂])
        · exact (jsStrLt_eq_false_iff _ _).mp h₂
      · rcases hconn a.rOrigin b.rOrigin heq with h | h
        · exact absurd h (by simp [h₁])
        · exact Or.inl h
    · intro a b e hab hbe
      rcases hab with h₁ | ⟨h₁, h₁s⟩ <;> rcases hbe with h₂ | ⟨h₂, h₂s⟩
      · exact Or.inl (htr e.rOrigin b.rOrigin a.rOrigin h₂ h₁)
      · exact Or.inl (h₂ ▸ h₁)
      · exact Or.inl (h₁ ▸ h₂)
      · refine Or.inr ⟨h₁.trans h₂, fun hlt => ?_⟩
        rcases lt_trichotomy a.sender b.sender with h | h | h
        · exact h₂s (lt_trans hlt h)
        · exact h₂s (h ▸ hlt)
        · exact h₁s h
  · refine skipInsert_pairwise _ _ ?_ ?_ ?_ lnode lsibs hls
    · intro a b hc
      exact lt_asymm ((jsStrLt_iff _ _).mp hc)
    · intro a b hc
      exact (jsStrLt_eq_false_iff _ _).mp hc
    · intro a b e hab hbe hlt
      rcases lt_trichotomy a.sender b.sender with h | h | h
      · exact hbe (lt_trans hlt h)
      · exact hbe (h ▸ hlt)
      · exact hab h

/-- Witness for claim C7 at concrete inputs (keys ordered by `<` on
`Nat`): inserting into sorted sibling arrays keeps them sorted. -/
theorem claim_C7_witness :
    (insertRightSib (fun a b : Nat => decide (a < b)) ⟨1, "b"⟩
        [⟨2, "a"⟩, ⟨0, "c"⟩]).Pairwise (rightSibOrdered (fun a b : Nat => decide (a < b)))
      ∧ (insertLeftSib (⟨0, "b"⟩ : SibNode Nat) [⟨9, "a"⟩, ⟨9, "c"⟩]).Pairwise
          (fun a b => ¬ b.sender < a.sender) := by
  have h := claim_C7_amended (fun a b : Nat => decide (a < b))
    (by intro a b e h₁ h₂; simp_all; omega)
    (by intro a b h; simp; omega)
    ⟨1, "b"⟩ ⟨0, "b"⟩ [⟨2, "a"⟩, ⟨0, "c"⟩] [⟨9, "a"⟩, ⟨9, "c"⟩]
    (by constructor
        · intro b hb
          simp at hb
          subst hb
          exact Or.inl (by decide)
        · simp [rightSibOrdered])
    (by constructor
        · intro b hb
          simp at hb
          subst hb
          exact (jsStrLt_eq_false_iff "c" "a").mp rfl
        · simp)
  exact h

/-! ### Claim C6: the fugue generator's originRight rule -/

/-- Claim C6 counterexample: in the document `[A, B]` built by two fugue
inserts, `B` is a right child of the new item's originLeft `A`, so the
claim requires the generated item's `originRight` to be absent; the
generator instead emits `originRight = B.id`. -/
theorem claim_C6_counterexample :
    Alg.fugue.localIns (newDoc : Doc Nat) "a" 0 1 = some fugueDocA
      ∧ Alg.fugue.localIns fugueDocA "a" 1 2 = some fugueDocAB
      ∧ findItemAtPos fugueDocAB 1 false = some 1
      ∧ specRightChild fugueDocAB 1 = true
      ∧ (fugueItemFor fugueDocAB "b" 1 7).map (·.originRight) = some (some ("a", 1)) := by
  refine ⟨rfl, rfl, rfl, ?_, rfl⟩
  decide

/-- Claim C6 (amended): `localInsertFugue` sets `originRight` to null
exactly when there is no visible right neighbor or the right neighbor's
own `originLeft` equals the neighbor's own id (the source compares
`originRight`, which is the right neighbor's id, against
`rightItem.originLeft`); whenever a right neighbor exists whose
`originLeft` differs from its own id — in particular whenever it is a
right child of the new item's `originLeft` in a document with unique
ids — `originRight` is the right neighbor's id. -/
theorem claim_C6_amended {T : Type} (doc : Doc T) (agent : String) (pos : Nat) (c : T) (i : Nat)
    (hi : findItemAtPos doc pos false = some i) :
    (doc.content.get? i = none →
        (fugueItemFor doc agent pos c).map (·.originRight) = some none)
      ∧ (∀ r, doc.content.get? i = some r →
          (fugueItemFor doc agent pos c).map (·.originRight)
            = some (if r.originLeft == some r.id then none else some r.id)) := by
  constructor
  · intro hget
    have hget' : doc.content[i]? = none := by simpa [← List.get?_eq_getElem?] using hget
    simp [fugueItemFor, hi, hget, hget']
  · intro r hget
    have hget' : doc.content[i]? = some r := by simpa [← List.get?_eq_getElem?] using hget
    simp [fugueItemFor, hi, hget, hget']

/-- Witness for claim C6 at the concrete `[A, B]` document. -/
theorem claim_C6_witness :
    (fugueItemFor fugueDocAB "b" 1 (7 : Nat)).map (·.originRight) = some (some ("a", 1)) := by
  have h := (claim_C6_amended fugueDocAB "b" 1 7 1 (by rfl)).2 fugueItemB (by rfl)
  simpa using h

/-! ### Lemmas about the seq-validation prelude (claim C2) -/

theorem vGet_vSet_self (v : List (String × Nat)) (a : String) (n : Nat) :
    vGet (vSet v a n) a = some n := by
  induction v with
  | nil => simp [vGet, vSet]
  | cons p rest ih =>
    obtain ⟨b, s⟩ := p
    by_cases h : b = a
    · simp [vSet, vGet, h]
    · simp [vSet, vGet, h, ih]

theorem integrateYjsMod_version {T : Type} (d : Doc T) (x : Item T) (d' : Doc T)
    (h : integrateYjsMod d x = some d') : d'.version = vSet d.version x.id.1 x.id.2 := by
  unfold integrateYjsMod at h
  by_cases hs : seqOk d x
  · simp only [hs, Bool.not_true, Bool.false_eq_true, if_false, Option.bind_eq_some,
      Option.map_eq_some'] at h
    obtain ⟨left, -, right, -, destIdx, -, h⟩ := h
    subst h
    rfl
  · simp only [Bool.not_eq_true] at hs
    simp [hs] at h

theorem integrateYjs_version {T : Type} (d : Doc T) (x : Item T) (d' : Doc T)
    (h : integrateYjs d x = some d') : d'.version = vSet d.version x.id.1 x.id.2 := by
  unfold integrateYjs at h
  by_cases hs : seqOk d x
  · simp only [hs, Bool.not_true, Bool.false_eq_true, if_false, Option.bind_eq_some,
      Option.map_eq_some'] at h
    obtain ⟨left, -, right, -, destIdx, -, h⟩ := h
    subst h
    rfl
  · simp only [Bool.not_eq_true] at hs
    simp [hs] at h

theorem integrateRGA_version {T : Type} (d : Doc T) (x : Item T) (d' : Doc T)
    (h : integrateRGA d x = some d') : d'.version = vSet d.version x.id.1 x.id.2 := by
  unfold integrateRGA at h
  by_cases hs : seqOk d x
  · simp only [hs, Bool.not_true, Bool.false_eq_true, if_false, Option.bind_eq_some,
      Option.map_eq_some'] at h
    obtain ⟨parent, -, destIdx, -, h⟩ := h
    subst h
    rfl
  · simp only [Bool.not_eq_true] at hs
    simp [hs] at h

theorem integrateSync9_version {T : Type} (d : Doc T) (x : Item T) (d' : Doc T)
    (h : integrateSync9 d x = some d') : d'.version = vSet d.version x.id.1 x.id.2 := by
  unfold integrateSync9 at h
  by_cases hs : seqOk d x
  · simp only [hs, Bool.not_true, Bool.false_eq_true, if_false, Option.bind_eq_some] at h
    obtain ⟨parentIdx, -, h⟩ := h
    split at h
    · split at h
      · simp only [Option.map_eq_some'] at h
        obtain ⟨destIdx, -, h⟩ := h
        subst h
        rfl
      · split at h
        · injection h with h
          subst h
          rfl
        · simp only [Option.map_eq_some'] at h
          obtain ⟨destIdx, -, h⟩ := h
          subst h
          rfl
    · simp only [Option.map_eq_some'] at h
      obtain ⟨destIdx, -, h⟩ := h
      subst h
      rfl
  · simp only [Bool.not_eq_true] at hs
    simp [hs] at h

theorem integrateRGASmol_version {T : Type} (d : Doc T) (x : Item T) (d' : Doc T)
    (h : integrateRGASmol d x = some d') : d'.version = vSet d.version x.id.1 x.id.2 := by
  unfold integrateRGASmol at h
  simp only [Option.bind_eq_some, Option.map_eq_some'] at h
  obtain ⟨parent, -, i, -, h⟩ := h
  subst h
  rfl

/-- Claim C2 counterexample: `integrateRGASmol` (the kernel the exported
automerge algorithm uses) accepts an item whose seq violates
`id.seq == (version[agent] ?? -1) + 1` — no error is thrown, the item is
integrated, and the version entry jumps straight to the gapped seq. -/
theorem claim_C2_counterexample :
    seqOk (newDoc : Doc Nat) c2GapItem = false
      ∧ integrateRGASmol (newDoc : Doc Nat) c2GapItem
          = some ⟨[c2GapItem], [("b", 5)], 1, 1⟩ := by
  constructor
  · decide
  · rfl

/-- Claim C2 (amended): the yjsMod, yjs, RGA and sync9 kernels begin by
validating `id.seq == (doc.version[agent] ?? -1) + 1` and fail on any
gap or replay; on success each of the five kernels (including
`integrateRGASmol`) records `id.seq` as the version entry of the item's
agent. `integrateRGASmol` performs no such validation: it records the
seq unconditionally on success (see the counterexample). -/
theorem claim_C2_amended {T : Type} (d : Doc T) (x : Item T) :
    (seqOk d x = false →
      integrateYjsMod d x = none ∧ integrateYjs d x = none
        ∧ integrateRGA d x = none ∧ integrateSync9 d x = none)
    ∧ (∀ d', integrateYjsMod d x = some d' → vGet d'.version x.id.1 = some x.id.2)
    ∧ (∀ d', integrateYjs d x = some d' → vGet d'.version x.id.1 = some x.id.2)
    ∧ (∀ d', integrateRGA d x = some d' → vGet d'.version x.id.1 = some x.id.2)
    ∧ (∀ d', integrateSync9 d x = some d' → vGet d'.version x.id.1 = some x.id.2)
    ∧ (∀ d', integrateRGASmol d x = some d' → vGet d'.version x.id.1 = some x.id.2) := by
  refine ⟨fun hbad => ?_, fun d' h => ?_, fun d' h => ?_, fun d' h => ?_, fun d' h => ?_,
    fun d' h => ?_⟩
  · refine ⟨?_, ?_, ?_, ?_⟩ <;> simp [integrateYjsMod, integrateYjs, integrateRGA,
      integrateSync9, hbad]
  · rw [integrateYjsMod_version d x d' h, vGet_vSet_self]
  · rw [integrateYjs_version d x d' h, vGet_vSet_self]
  · rw [integrateRGA_version d x d' h, vGet_vSet_self]
  · rw [integrateSync9_version d x d' h, vGet_vSet_self]
  · rw [integrateRGASmol_version d x d' h, vGet_vSet_self]

/-- Witness for claim C2 at concrete inputs: a violating item is
rejected by the four validating kernels, and a successful yjsMod
integration records the seq in the version map. -/
theorem claim_C2_witness :
    (integrateYjsMod (newDoc : Doc Nat) c2GapItem = none
      ∧ integrateYjs (newDoc : Doc Nat) c2GapItem = none
      ∧ integrateRGA (newDoc : Doc Nat) c2GapItem = none
      ∧ integrateSync9 (newDoc : Doc Nat) c2GapItem = none)
    ∧ vGet (⟨[c2SeqItem], [("a", 0)], 1, 0⟩ : Doc Nat).version "a" = some 0 :=
  ⟨(claim_C2_amended (newDoc : Doc Nat) c2GapItem).1 (by decide),
   (claim_C2_amended (newDoc : Doc Nat) c2SeqItem).2.1 ⟨[c2SeqItem], [("a", 0)], 1, 0⟩
     (by rfl)⟩

/-- Witness for claim C10 at a concrete one-element document. -/
theorem claim_C10_witness :
    findItemAtPos (⟨[⟨some 9, ("a", 0), none, none, 1, true, false⟩], [("a", 0)], 1, 0⟩ : Doc Nat)
        1 false = some 1
      ∧ ((⟨[⟨some 9, ("a", 0), none, none, 1, true, false⟩], [("a", 0)], 1, 0⟩ : Doc Nat)).content.get?
          1 = none
      ∧ localDelete (⟨[⟨some 9, ("a", 0), none, none, 1, true, false⟩], [("a", 0)], 1, 0⟩ : Doc Nat)
          1 = none := by
  have h := claim_C10
    (⟨[⟨some 9, ("a", 0), none, none, 1, true, false⟩], [("a", 0)], 1, 0⟩ : Doc Nat) 1 (by decide)
  exact ⟨h.1, h.2.1, h.2.2⟩

theorem countVisible_jsSplice {T : Type} (l : List (Item T)) (i : Nat) (x : Item T) :
    countVisible (jsSplice l i x) = countVisible l + if visibleItem x then 1 else 0 := by
  unfold jsSplice countVisible
  rw [List.countP_append, List.countP_cons]
  conv_rhs => rw [← List.take_append_drop i l, List.countP_append]
  omega

theorem countP_set {T : Type} (p : Item T → Bool) (l : List (Item T)) (i : Nat)
    (item v : Item T) (h : l.get? i = some item) :
    (l.set i v).countP p + (if p item then 1 else 0)
      = l.countP p + (if p v then 1 else 0) := by
  induction l generalizing i with
  | nil => cases h
  | cons a rest ih =>
    cases i with
    | zero =>
      injection h with h
      subst h
      simp only [List.set, List.countP_cons]
      omega
    | succ n =>
      simp only [List.get?] at h
      simp only [List.set, List.countP_cons]
      have := ih n h
      omega

theorem findItemAtPosAux_le {T : Type} (l : List (Item T)) (pos : Nat) (stick : Bool)
    (i j : Nat) (h : findItemAtPosAux l pos stick i = some j) : i ≤ j := by
  induction l generalizing pos i with
  | nil =>
    unfold findItemAtPosAux at h
    split at h
    · injection h with h
      omega
    · cases h
  | cons a rest ih =>
    unfold findItemAtPosAux at h
    split at h
    · injection h with h
      omega
    · split at h
      · have := ih pos (i + 1) h
        omega
      · split at h
        · injection h with h
          omega
        · have := ih (pos - 1) (i + 1) h
          omega

theorem findItemAtPosAux_visible {T : Type} (l : List (Item T)) (pos : Nat) (i j : Nat)
    (h : findItemAtPosAux l pos false i = some j) :
    ∀ it, l.get? (j - i) = some it → visibleItem it = true := by
  induction l generalizing pos i with
  | nil =>
    intro it hit
    cases hit
  | cons a rest ih =>
    intro it hit
    unfold findItemAtPosAux at h
    rw [if_neg (by simp)] at h
    split at h
    · rename_i hskip
      have hle := findItemAtPosAux_le rest pos false (i + 1) j h
      have hji : j - i = (j - (i + 1)) + 1 := by omega
      rw [hji] at hit
      simp only [List.get?] at hit
      exact ih pos (i + 1) h it hit
    · split at h
      · injection h with h
        subst h
        simp only [Nat.sub_self, List.get?] at hit
        injection hit with hit
        subst hit
        rename_i hskip _
        rw [skip_eq_not_visible] at hskip
        simpa using hskip
      · have hle := findItemAtPosAux_le rest (pos - 1) false (i + 1) j h
        have hji : j - i = (j - (i + 1)) + 1 := by omega
        rw [hji] at hit
        simp only [List.get?] at hit
        exact ih (pos - 1) (i + 1) h it hit

theorem localDelete_len {T : Type} (d : Doc T) (pos : Nat) (d' : Doc T)
    (hd : d.length = countVisible d.content) (h : localDelete d pos = some d') :
    d'.length = countVisible d'.content := by
  unfold localDelete at h
  cases hf : findItemAtPos d pos false with
  | none =>
    rw [hf] at h
    cases h
  | some i =>
    rw [hf] at h
    dsimp only at h
    cases hg : d.content.get? i with
    | none =>
      rw [hg] at h
      cases h
    | some item =>
      rw [hg] at h
      dsimp only at h
      by_cases hdel : item.isDeleted
      · rw [if_pos hdel] at h
        injection h with h
        subst h
        exact hd
      · rw [if_neg hdel] at h
        injection h with h
        subst h
        show d.length - 1 = countVisible (d.content.set i _)
        have hvis : visibleItem item = true :=
          findItemAtPosAux_visible d.content pos 0 i hf item hg
        have hset := countP_set visibleItem d.content i item
          ({ item with isDeleted := true }) hg
        have hv2 : visibleItem ({ item with isDeleted := true } : Item T) = false := by
          simp [visibleItem]
        rw [hvis, hv2] at hset
        simp only [if_true, Bool.false_eq_true, if_false] at hset
        unfold countVisible at hd ⊢
        omega

theorem visibleItem_of {T : Type} (x : Item T) (hx : x.content.isSome = true) :
    visibleItem x = !x.isDeleted := by
  simp [visibleItem, hx]

theorem integrateYjsMod_len {T : Type} (d : Doc T) (x : Item T) (d' : Doc T)
    (hd : d.length = countVisible d.content) (hx : x.content.isSome = true)
    (h : integrateYjsMod d x = some d') : d'.length = countVisible d'.content := by
  unfold integrateYjsMod at h
  by_cases hs : seqOk d x
  · simp only [hs, Bool.not_true, Bool.false_eq_true, if_false, Option.bind_eq_some,
      Option.map_eq_some'] at h
    obtain ⟨left, -, right, -, k, -, h⟩ := h
    subst h
    show (if x.isDeleted then d.length else d.length + 1) = countVisible (jsSplice d.content k x)
    rw [countVisible_jsSplice, visibleItem_of x hx]
    cases hdel : x.isDeleted <;> simp [hd]
  · simp only [Bool.not_eq_true] at hs
    simp [hs] at h

theorem integrateYjs_len {T : Type} (d : Doc T) (x : Item T) (d' : Doc T)
    (hd : d.length = countVisible d.content) (hx : x.content.isSome = true)
    (h : integrateYjs d x = some d') : d'.length = countVisible d'.content := by
  unfold integrateYjs at h
  by_cases hs : seqOk d x
  · simp only [hs, Bool.not_true, Bool.false_eq_true, if_false, Option.bind_eq_some,
      Option.map_eq_some'] at h
    obtain ⟨left, -, right, -, k, -, h⟩ := h
    subst h
    show (if x.isDeleted then d.length else d.length + 1) = countVisible (jsSplice d.content k x)
    rw [countVisible_jsSplice, visibleItem_of x hx]
    cases hdel : x.isDeleted <;> simp [hd]
  · simp only [Bool.not_eq_true] at hs
    simp [hs] at h

theorem integrateRGA_len {T : Type} (d : Doc T) (x : Item T) (d' : Doc T)
    (hd : d.length = countVisible d.content) (hx : x.content.isSome = true)
    (h : integrateRGA d x = some d') : d'.length = countVisible d'.content := by
  unfold integrateRGA at h
  by_cases hs : seqOk d x
  · simp only [hs, Bool.not_true, Bool.false_eq_true, if_false, Option.bind_eq_some,
      Option.map_eq_some'] at h
    obtain ⟨parent, -, k, -, h⟩ := h
    subst h
    show (if x.isDeleted then d.length else d.length + 1) = countVisible (jsSplice d.content k x)
    rw [countVisible_jsSplice, visibleItem_of x hx]
    cases hdel : x.isDeleted <;> simp [hd]
  · simp only [Bool.not_eq_true] at hs
    simp [hs] at h

theorem integrateRGASmol_len {T : Type} (d : Doc T) (x : Item T) (d' : Doc T)
    (hd : d.length = countVisible d.content) (hx : x.content.isSome = true)
    (h : integrateRGASmol d x = some d') : d'.length = countVisible d'.content := by
  unfold integrateRGASmol at h
  simp only [Option.bind_eq_some, Option.map_eq_some'] at h
  obtain ⟨parent, -, k, -, h⟩ := h
  subst h
  show (if x.isDeleted then d.length else d.length + 1) = countVisible (jsSplice d.content k x)
  rw [countVisible_jsSplice, visibleItem_of x hx]
  cases hdel : x.isDeleted <;> simp [hd]

theorem integrateSync9_len {T : Type} (d : Doc T) (x : Item T) (d' : Doc T)
    (hd : d.length = countVisible d.content)
    (h : integrateSync9 d x = some d') : d'.length = countVisible d'.content := by
  have hv : visibleItem x = (!x.isDeleted && x.content.isSome) := rfl
  unfold integrateSync9 at h
  by_cases hs : seqOk d x
  · simp only [hs, Bool.not_true, Bool.false_eq_true, if_false, Option.bind_eq_some] at h
    obtain ⟨parentIdx, -, h⟩ := h
    split at h
    · split at h
      · simp only [Option.map_eq_some'] at h
        obtain ⟨k, -, h⟩ := h
        subst h
        show (if (!x.isDeleted && x.content.isSome) = true then d.length + 1 else d.length)
          = countVisible (jsSplice d.content k x)
        rw [countVisible_jsSplice]
        cases hb : (!x.isDeleted && x.content.isSome) <;> simp [hd, hv, hb]
      · rename_i parentItem hpc
        split at h
        · injection h with h
          subst h
          show (if (!x.isDeleted && x.content.isSome) = true then d.length + 1 else d.length)
            = countVisible (jsSplice (jsSplice d.content parentIdx.toNat
                { parentItem with content := none }) (parentIdx.toNat + 1) x)
          rw [countVisible_jsSplice, countVisible_jsSplice]
          have hm : visibleItem ({ parentItem with content := none } : Item T) = false := by
            simp [visibleItem]
          rw [hm]
          cases hb : (!x.isDeleted && x.content.isSome) <;> simp [hd, hv, hb]
        · simp only [Option.map_eq_some'] at h
          obtain ⟨k, -, h⟩ := h
          subst h
          show (if (!x.isDeleted && x.content.isSome) = true then d.length + 1 else d.length)
            = countVisible (jsSplice d.content k x)
          rw [countVisible_jsSplice]
          cases hb : (!x.isDeleted && x.content.isSome) <;> simp [hd, hv, hb]
    · simp only [Option.map_eq_some'] at h
      obtain ⟨k, -, h⟩ := h
      subst h
      show (if (!x.isDeleted && x.content.isSome) = true then d.length + 1 else d.length)
        = countVisible (jsSplice d.content k x)
      rw [countVisible_jsSplice]
      cases hb : (!x.isDeleted && x.content.isSome) <;> simp [hd, hv, hb]
  · simp only [Bool.not_eq_true] at hs
    simp [hs] at h

theorem alg_integrate_len {T : Type} (alg : Alg) (d : Doc T) (x : Item T) (d' : Doc T)
    (hd : d.length = countVisible d.content) (hx : x.content.isSome = true)
    (h : Alg.integrate alg d x = some d') : d'.length = countVisible d'.content := by
  cases alg with
  | yjsMod => exact integrateYjsMod_len d x d' hd hx h
  | yjs => exact integrateYjs_len d x d' hd hx h
  | automerge => exact integrateRGASmol_len d x d' hd hx h
  | sync9 => exact integrateSync9_len d x d' hd h
  | fugue => exact integrateYjsMod_len d x d' hd hx h

theorem localInsert_len {T : Type} (integrate : Doc T → Item T → Option (Doc T))
    (hK : ∀ (d : Doc T) (x : Item T) (d' : Doc T), d.length = countVisible d.content →
      x.content.isSome = true → integrate d x = some d' → d'.length = countVisible d'.content)
    (d : Doc T) (agent : String) (pos : Nat) (c : T) (d' : Doc T)
    (hd : d.length = countVisible d.content)
    (h : localInsert integrate d agent pos c = some d') :
    d'.length = countVisible d'.content := by
  unfold localInsert at h
  cases hf : findItemAtPos d pos false with
  | none =>
    rw [hf] at h
    cases h
  | some i =>
    rw [hf] at h
    dsimp only at h
    refine hK d _ d' hd ?_ h
    rfl

theorem fugueItemFor_content {T : Type} (d : Doc T) (agent : String) (pos : Nat) (c : T)
    (item : Item T) (h : fugueItemFor d agent pos c = some item) : item.content = some c := by
  unfold fugueItemFor at h
  cases hf : findItemAtPos d pos false with
  | none =>
    rw [hf] at h
    cases h
  | some i =>
    rw [hf] at h
    dsimp only at h
    injection h with h
    subst h
    rfl

theorem localInsertFugue_len {T : Type} (integrate : Doc T → Item T → Option (Doc T))
    (hK : ∀ (d : Doc T) (x : Item T) (d' : Doc T), d.length = countVisible d.content →
      x.content.isSome = true → integrate d x = some d' → d'.length = countVisible d'.content)
    (d : Doc T) (agent : String) (pos : Nat) (c : T) (d' : Doc T)
    (hd : d.length = countVisible d.content)
    (h : localInsertFugue integrate d agent pos c = some d') :
    d'.length = countVisible d'.content := by
  unfold localInsertFugue at h
  cases hf : fugueItemFor d agent pos c with
  | none =>
    rw [hf] at h
    cases h
  | some item =>
    rw [hf] at h
    have := fugueItemFor_content d agent pos c item hf
    exact hK d item d' hd (by simp [this]) h

theorem localInsertSync9_len {T : Type} (integrate : Doc T → Item T → Option (Doc T))
    (hK : ∀ (d : Doc T) (x : Item T) (d' : Doc T), d.length = countVisible d.content →
      x.content.isSome = true → integrate d x = some d' → d'.length = countVisible d'.content)
    (d : Doc T) (agent : String) (pos : Nat) (c : T) (d' : Doc T)
    (hd : d.length = countVisible d.content)
    (h : localInsertSync9 integrate d agent pos c = some d') :
    d'.length = countVisible d'.content := by
  unfold localInsertSync9 at h
  cases hf : findItemAtPos d pos true with
  | none =>
    rw [hf] at h
    cases h
  | some i =>
    rw [hf] at h
    dsimp only at h
    refine hK d _ d' hd ?_ h
    rfl

theorem alg_localIns_len {T : Type} (alg : Alg) (d : Doc T) (agent : String) (pos : Nat)
    (c : T) (d' : Doc T) (hd : d.length = countVisible d.content)
    (h : Alg.localIns alg d agent pos c = some d') :
    d'.length = countVisible d'.content := by
  cases alg with
  | yjsMod =>
    exact localInsert_len _ (fun d x d' a b e => integrateYjsMod_len d x d' a b e) d agent pos c d' hd h
  | yjs =>
    exact localInsert_len _ (fun d x d' a b e => integrateYjs_len d x d' a b e) d agent pos c d' hd h
  | automerge =>
    exact localInsert_len _ (fun d x d' a b e => integrateRGASmol_len d x d' a b e) d agent pos c d' hd h
  | sync9 =>
    exact localInsertSync9_len _ (fun d x d' a _ e => integrateSync9_len d x d' a e) d agent pos c d' hd h
  | fugue =>
    exact localInsertFugue_len _ (fun d x d' a b e => integrateYjsMod_len d x d' a b e) d agent pos c d' hd h

theorem mergePass_len {T : Type} (integrate : Doc T → Item T → Option (Doc T))
    (hK : ∀ (d : Doc T) (x : Item T) (d' : Doc T), d.length = countVisible d.content →
      x.content.isSome = true → integrate d x = some d' → d'.length = countVisible d'.content) :
    ∀ (missing : List (Option (Item T))) (dest : Doc T)
      (out : Doc T × List (Option (Item T)) × Nat),
      dest.length = countVisible dest.content → goodMissing missing →
      mergePass integrate dest missing = some out →
      out.1.length = countVisible out.1.content ∧ goodMissing out.2.1 := by
  intro missing
  induction missing with
  | nil =>
    intro dest out hd hg h
    unfold mergePass at h
    injection h with h
    subst h
    exact ⟨hd, fun x hx => absurd hx (by simp)⟩
  | cons op rest ih =>
    intro dest out hd hg h
    have hgrest : goodMissing rest := fun x hx => hg x (List.mem_cons.mpr (Or.inr hx))
    cases op with
    | none =>
      unfold mergePass at h
      simp only [Option.map_eq_some'] at h
      obtain ⟨y, hy, h⟩ := h
      subst h
      obtain ⟨h1, h2⟩ := ih dest y hd hgrest hy
      refine ⟨h1, fun x hx => ?_⟩
      rcases List.mem_cons.mp hx with hx | hx
      · cases hx
      · exact h2 x hx
    | some op =>
      unfold mergePass at h
      by_cases hc : canInsertNow op dest
      · rw [if_pos hc] at h
        cases hi : integrate dest op with
        | none =>
          rw [hi] at h
          cases h
        | some d₁ =>
          rw [hi] at h
          simp only [Option.map_eq_some'] at h
          obtain ⟨y, hy, h⟩ := h
          subst h
          have hd₁ := hK dest op d₁ hd (hg op (List.mem_cons.mpr (Or.inl rfl))) hi
          obtain ⟨h1, h2⟩ := ih d₁ y hd₁ hgrest hy
          refine ⟨h1, fun x hx => ?_⟩
          rcases List.mem_cons.mp hx with hx | hx
          · cases hx
          · exact h2 x hx
      · rw [if_neg hc] at h
        simp only [Option.map_eq_some'] at h
        obtain ⟨y, hy, h⟩ := h
        subst h
        obtain ⟨h1, h2⟩ := ih dest y hd hgrest hy
        refine ⟨h1, fun x hx => ?_⟩
        rcases List.mem_cons.mp hx with hx | hx
        · injection hx with hx
          subst hx
          exact hg x (List.mem_cons.mpr (Or.inl rfl))
        · exact h2 x hx

theorem mergeLoop_len {T : Type} (integrate : Doc T → Item T → Option (Doc T))
    (hK : ∀ (d : Doc T) (x : Item T) (d' : Doc T), d.length = countVisible d.content →
      x.content.isSome = true → integrate d x = some d' → d'.length = countVisible d'.content) :
    ∀ (fuel : Nat) (dest : Doc T) (missing : List (Option (Item T))) (d' : Doc T),
      dest.length = countVisible dest.content → goodMissing missing →
      mergeLoop integrate fuel dest missing = some d' →
      d'.length = countVisible d'.content := by
  intro fuel
  induction fuel with
  | zero =>
    intro dest missing d' hd hg h
    unfold mergeLoop at h
    split at h
    · injection h with h
      subst h
      exact hd
    · cases h
  | succ fuel ih =>
    intro dest missing d' hd hg h
    unfold mergeLoop at h
    split at h
    · injection h with h
      subst h
      exact hd
    · cases hp : mergePass integrate dest missing with
      | none =>
        rw [hp] at h
        cases h
      | some out =>
        obtain ⟨d₁, m₁, n₁⟩ := out
        rw [hp] at h
        dsimp only at h
        obtain ⟨h1, h2⟩ := mergePass_len integrate hK missing dest (d₁, m₁, n₁) hd hg hp
        by_cases hm : n₁ = 0
        · rw [if_pos hm] at h
          cases h
        · rw [if_neg hm] at h
          exact ih d₁ m₁ d' h1 h2 h

theorem mergeInto_len {T : Type} (integrate : Doc T → Item T → Option (Doc T))
    (hK : ∀ (d : Doc T) (x : Item T) (d' : Doc T), d.length = countVisible d.content →
      x.content.isSome = true → integrate d x = some d' → d'.length = countVisible d'.content)
    (dest src : Doc T) (d' : Doc T) (hd : dest.length = countVisible dest.content)
    (h : mergeInto integrate dest src = some d') : d'.length = countVisible d'.content := by
  unfold mergeInto at h
  refine mergeLoop_len integrate hK _ dest _ d' hd (fun x hx => ?_) h
  simp only [List.mem_map] at hx
  obtain ⟨y, hy, hxy⟩ := hx
  injection hxy with hxy
  subst hxy
  have := List.of_mem_filter hy
  simp only [Bool.and_eq_true] at this
  exact this.1

theorem getArrayL_length {T : Type} (l : List (Item T)) :
    (getArrayL l).length = countVisible l := by
  induction l with
  | nil => rfl
  | cons a rest ih =>
    unfold getArrayL countVisible at *
    rw [List.filterMap_cons, List.countP_cons]
    have hv : visibleItem a = ((if a.isDeleted then none else a.content) : Option T).isSome := by
      unfold visibleItem
      cases a.isDeleted <;> simp
    cases hf : (if a.isDeleted then none else a.content : Option T) with
    | none => simp [hv, hf, ih]
    | some c => simp [hv, hf, ih]

/-- C9: on every reachable document, `doc.length` equals the number of
content entries that are not deleted and carry content, which is the
length of `getArray doc`. -/
theorem claim_C9 {T : Type} (alg : Alg) (d : Doc T) (h : Reached alg d) :
    d.length = countVisible d.content ∧ d.length = (getArray d).length := by
  have hmain : d.length = countVisible d.content := by
    induction h with
    | init => rfl
    | localIns d agent pos c d' _ hstep ih =>
      exact alg_localIns_len alg d agent pos c d' ih hstep
    | localDel d pos d' _ hstep ih =>
      exact localDelete_len d pos d' ih hstep
    | integrate d x d' _ hx hstep ih =>
      exact alg_integrate_len alg d x d' ih hx hstep
    | merge dest src d' _ hstep ih =>
      exact mergeInto_len _ (fun a b c h1 h2 h3 => alg_integrate_len alg a b c h1 h2 h3)
        dest src d' ih hstep
  exact ⟨hmain, by rw [hmain, getArray, getArrayL_length]⟩

theorem claim_C9_witness :
    c9Doc.length = countVisible c9Doc.content ∧ c9Doc.length = (getArray c9Doc).length :=
  claim_C9 Alg.yjsMod c9Doc
    (Reached.localIns newDoc "a" 0 7 c9Doc Reached.init rfl)
